import Mathlib

/-!
Verification development for the ZVerse confidential group-messaging system:
the `ZVerseGroups` registry contract (src/contracts/ZVerseGroups.sol) and the
client-side envelope codec (src/ui/src/utils/messages.ts).

The registry contract is embedded as a state machine over explicit records;
the external FHE co-processor is modelled, per the spec's component breakdown,
as an opaque handle allocator together with an access-control list: `FHE.allow`
writes the ACL, `FHE.isAllowed` reads it, and `FHE.asEaddress` /
`FHE.fromExternal` allocate fresh registry-owned handles.

The envelope codec is embedded byte-for-byte: keccak256 (from the ethers
library) is implemented concretely (Keccak-f[1600] with the original 0x01
multi-rate padding, as used by Ethereum), and the WHATWG TextEncoder /
TextDecoder UTF-8 conversions are implemented with the standard replacement
semantics.  Machine bytes and 256-bit words are `Nat` with explicit bounds.
-/

namespace ZVerse

/-! ## Keccak-256 (ethers.keccak256) -/

/-- 64-bit all-ones mask. -/
def mask64 : Nat := 2 ^ 64 - 1

/-- Rotate a 64-bit lane left by `n` (0 ≤ n < 64). -/
def rotl64 (x n : Nat) : Nat := ((x <<< n) % 2 ^ 64) ||| (x >>> (64 - n))

/-- Keccak rho rotation offsets, indexed by lane index `x + 5*y`. -/
def rotOffsets : List Nat :=
  [0x0, 0x1, 0x3e, 0x1c, 0x1b,
   0x24, 0x2c, 0x6, 0x37, 0x14,
   0x3, 0xa, 0x2b, 0x19, 0x27,
   0x29, 0x2d, 0xf, 0x15, 0x8,
   0x12, 0x2, 0x3d, 0x38, 0xe]

/-- Keccak iota round constants for the 24 rounds of Keccak-f[1600]. -/
def roundConstants : List Nat :=
  [1, 32898, 9223372036854808714,
   9223372039002292224, 32907, 2147483649,
   9223372039002292353, 9223372036854808585, 138,
   136, 2147516425, 2147483658,
   2147516555, 9223372036854775947, 9223372036854808713,
   9223372036854808579, 9223372036854808578, 9223372036854775936,
   32778, 9223372039002259466, 9223372039002292353,
   9223372036854808704, 2147483649, 9223372039002292232]

/-- Theta step of Keccak-f: xor each lane with the parity of two columns. -/
def keccakTheta (A : List Nat) : List Nat :=
  let C := (List.range 5).map fun x =>
    A.getD x 0 ^^^ A.getD (x + 5) 0 ^^^ A.getD (x + 10) 0 ^^^
      A.getD (x + 15) 0 ^^^ A.getD (x + 20) 0
  let D := (List.range 5).map fun x =>
    C.getD ((x + 4) % 5) 0 ^^^ rotl64 (C.getD ((x + 1) % 5) 0) 1
  (List.range 25).map fun i => A.getD i 0 ^^^ D.getD (i % 5) 0

/-- Combined rho (rotation) and pi (lane permutation) steps of Keccak-f. -/
def keccakRhoPi (A : List Nat) : List Nat :=
  (List.range 25).map fun i =>
    let x := i % 5
    let y := i / 5
    let s := (x + 3 * y) % 5 + 5 * x
    rotl64 (A.getD s 0) (rotOffsets.getD s 0)

/-- Chi step of Keccak-f: nonlinear row mixing. -/
def keccakChi (A : List Nat) : List Nat :=
  (List.range 25).map fun i =>
    let x := i % 5
    let y := i / 5
    A.getD i 0 ^^^ ((A.getD ((x + 1) % 5 + 5 * y) 0 ^^^ mask64) &&&
      A.getD ((x + 2) % 5 + 5 * y) 0)

/-- One round of Keccak-f[1600]: theta, rho, pi, chi, iota. -/
def keccakRound (A : List Nat) (rc : Nat) : List Nat :=
  let B := keccakChi (keccakRhoPi (keccakTheta A))
  B.set 0 (B.getD 0 0 ^^^ rc)

/-- The full 24-round Keccak-f[1600] permutation on a 25-lane state. -/
def keccakF (A : List Nat) : List Nat := roundConstants.foldl keccakRound A

/-- Original Keccak multi-rate padding (0x01 … 0x80) for rate 136 bytes. -/
def keccakPad (msg : List Nat) : List Nat :=
  let padLen := 136 - msg.length % 136
  if padLen = 1 then msg ++ [0x81]
  else msg ++ [0x01] ++ List.replicate (padLen - 2) 0 ++ [0x80]

/-- Interpret up to 8 bytes as a little-endian 64-bit lane. -/
def bytesToLane (bs : List Nat) : Nat := bs.foldr (fun b acc => b + 256 * acc) 0

/-- The 17 rate lanes of one 136-byte block. -/
def blockLanes (block : List Nat) : List Nat :=
  (List.range 17).map fun j => bytesToLane ((block.drop (8 * j)).take 8)

/-- Absorb one 136-byte block into the sponge state and permute. -/
def absorbBlock (A : List Nat) (block : List Nat) : List Nat :=
  keccakF ((List.range 25).map fun i => A.getD i 0 ^^^ (blockLanes block).getD i 0)

/-- Absorb a padded message block by block (fuel bounds the number of blocks). -/
def absorbAux : Nat → List Nat → List Nat → List Nat
  | _, A, [] => A
  | 0, A, _ => A
  | fuel + 1, A, bytes => absorbAux fuel (absorbBlock A (bytes.take 136)) (bytes.drop 136)

/-- keccak256 of a byte list: pad, absorb, squeeze the first 32 state bytes. -/
def keccak256 (msg : List Nat) : List Nat :=
  let A := absorbAux (msg.length + 2) (List.replicate 25 0) (keccakPad msg)
  (List.range 32).map fun k => (A.getD (k / 8) 0 >>> (8 * (k % 8))) % 256

/-! ## UTF-8 (WHATWG TextEncoder / TextDecoder) -/

/-- UTF-8 encoding of a single Unicode scalar value (TextEncoder semantics;
Lean `Char`s are exactly the scalar values, so no surrogate branch arises). -/
def utf8EncodeChar (c : Char) : List Nat :=
  let n := c.toNat
  if n < 0x80 then [n]
  else if n < 0x800 then [0xC0 + n / 64, 0x80 + n % 64]
  else if n < 0x10000 then [0xE0 + n / 4096, 0x80 + n / 64 % 64, 0x80 + n % 64]
  else [0xF0 + n / 262144, 0x80 + n / 4096 % 64, 0x80 + n / 64 % 64, 0x80 + n % 64]

/-- UTF-8 encoding of a string (`new TextEncoder().encode(message)`). -/
def utf8Encode (s : String) : List Nat := s.data.flatMap utf8EncodeChar

/-- The Unicode replacement character U+FFFD. -/
def replChar : Char := Char.ofNat 0xFFFD

/-- Is `b` a UTF-8 continuation byte (0x80–0xBF)? -/
def isCont (b : Nat) : Bool := 0x80 ≤ b && b < 0xC0

/-- Lower bound for the second byte of a sequence led by `b0` (WHATWG table). -/
def sndLo (b0 : Nat) : Nat := if b0 = 0xE0 then 0xA0 else if b0 = 0xF0 then 0x90 else 0x80

/-- Upper bound (exclusive) for the second byte of a sequence led by `b0`. -/
def sndHi (b0 : Nat) : Nat := if b0 = 0xED then 0xA0 else if b0 = 0xF4 then 0x90 else 0xC0

/-- WHATWG UTF-8 decoder with replacement: malformed sequences yield U+FFFD and
decoding resumes at the offending byte, exactly as `TextDecoder` (non-fatal)
does. -/
def utf8DecodeAux : List Nat → List Char
  | [] => []
  | b0 :: rest =>
    if b0 < 0x80 then Char.ofNat b0 :: utf8DecodeAux rest
    else if b0 < 0xC2 then replChar :: utf8DecodeAux rest
    else if b0 < 0xE0 then
      match rest with
      | [] => [replChar]
      | b1 :: rest1 =>
        if isCont b1 then
          Char.ofNat ((b0 - 0xC0) * 64 + (b1 - 0x80)) :: utf8DecodeAux rest1
        else replChar :: utf8DecodeAux (b1 :: rest1)
    else if b0 < 0xF0 then
      match rest with
      | [] => [replChar]
      | b1 :: rest1 =>
        if sndLo b0 ≤ b1 ∧ b1 < sndHi b0 then
          match rest1 with
          | [] => [replChar]
          | b2 :: rest2 =>
            if isCont b2 then
              Char.ofNat ((b0 - 0xE0) * 4096 + (b1 - 0x80) * 64 + (b2 - 0x80)) ::
                utf8DecodeAux rest2
            else replChar :: utf8DecodeAux (b2 :: rest2)
        else replChar :: utf8DecodeAux (b1 :: rest1)
    else if b0 < 0xF5 then
      match rest with
      | [] => [replChar]
      | b1 :: rest1 =>
        if sndLo b0 ≤ b1 ∧ b1 < sndHi b0 then
          match rest1 with
          | [] => [replChar]
          | b2 :: rest2 =>
            if isCont b2 then
              match rest2 with
              | [] => [replChar]
              | b3 :: rest3 =>
                if isCont b3 then
                  Char.ofNat ((b0 - 0xF0) * 262144 + (b1 - 0x80) * 4096 +
                    (b2 - 0x80) * 64 + (b3 - 0x80)) :: utf8DecodeAux rest3
                else replChar :: utf8DecodeAux (b3 :: rest3)
            else replChar :: utf8DecodeAux (b2 :: rest2)
        else replChar :: utf8DecodeAux (b1 :: rest1)
    else replChar :: utf8DecodeAux rest

/-- `new TextDecoder().decode(bytes)`: total, never raises. -/
def utf8Decode (bs : List Nat) : String := ⟨utf8DecodeAux bs⟩

/-! ## Byte/integer conversions (ethers.hexlify, toBeHex, zeroPadValue, getBytes) -/

/-- Big-endian value of a byte list (`BigInt(ethers.hexlify(bytes))`). -/
def bytesToNat (bs : List Nat) : Nat := bs.foldl (fun acc b => acc * 256 + b) 0

/-- Big-endian rendering of `v` on exactly `w` bytes
(`ethers.zeroPadValue(ethers.toBeHex(v), w)` for `v < 256^w`). -/
def natToBytesBE : Nat → Nat → List Nat
  | 0, _ => []
  | w + 1, v => natToBytesBE w (v / 256) ++ [v % 256]

/-- Minimal big-endian rendering of `v` (fuelled so the kernel can reduce it). -/
def natToMinBytesAux : Nat → Nat → List Nat
  | 0, _ => []
  | fuel + 1, v => if v < 256 then [v] else natToMinBytesAux fuel (v / 256) ++ [v % 256]

/-- `ethers.getBytes(ethers.toBeHex(v))`: the minimal even-length hex rendering
of `v` as bytes (`[0]` for `v = 0`). -/
def natToMinBytes (v : Nat) : List Nat := natToMinBytesAux (v + 1) v

/-! ## Group-key string parsing (deriveKeyBytes, normalizeGroupKey) -/

/-- Value of one hexadecimal digit character, if any. -/
def hexDigitVal (c : Char) : Option Nat :=
  if '0' ≤ c ∧ c ≤ '9' then some (c.toNat - 48)
  else if 'a' ≤ c ∧ c ≤ 'f' then some (c.toNat - 87)
  else if 'A' ≤ c ∧ c ≤ 'F' then some (c.toNat - 55)
  else none

/-- `ethers.getBytes` on the hex digits after `0x`: pairs of hex digits become
bytes; an odd count or a non-hex character raises. -/
def hexPairsToBytes : List Char → Option (List Nat)
  | [] => some []
  | [_] => none
  | c1 :: c2 :: rest =>
    match hexDigitVal c1, hexDigitVal c2, hexPairsToBytes rest with
    | some h, some l, some tail => some ((h * 16 + l) :: tail)
    | _, _, _ => none

/-- `BigInt(string)` on a decimal string (the empty string denotes 0; any
non-digit raises).  Literal prefixes other than the `0x` form handled by the
caller are not modelled. -/
def parseDecimalAux : List Char → Nat → Option Nat
  | [], acc => some acc
  | c :: rest, acc =>
    if '0' ≤ c ∧ c ≤ '9' then parseDecimalAux rest (acc * 10 + (c.toNat - 48))
    else none

/-- The byte array that `deriveKeyBytes` feeds to keccak256: a `0x`-prefixed
key contributes its literal hex-digit bytes, any other key is parsed with
`BigInt` and rendered as the minimal big-endian hex of its value. -/
def rawKeyBytes (groupKey : String) : Option (List Nat) :=
  match groupKey.data with
  | '0' :: 'x' :: rest => hexPairsToBytes rest
  | chars => (parseDecimalAux chars 0).map natToMinBytes

/-- `deriveKeyBytes` (src/ui/src/utils/messages.ts lines 6–12): keccak256 of
the literal byte rendering of the key string; `none` models a raised error. -/
def deriveKeyBytes (groupKey : String) : Option (List Nat) :=
  (rawKeyBytes groupKey).map keccak256

/-- The numeric secret value denoted by a key string (hex or decimal). -/
def secretValue (groupKey : String) : Option Nat :=
  match groupKey.data with
  | '0' :: 'x' :: rest => (hexPairsToBytes rest).map bytesToNat
  | chars => parseDecimalAux chars 0

/-! ## Envelope codec (sealMessage / openMessage) -/

/-- Errors raised by the codec.  `messageTooLong` is the explicit
"Message too long" throw in `sealMessage`; `invalidKey` models the errors
`ethers` raises while parsing a malformed key string; `valueOutOfRange` models
the error `ethers.zeroPadValue` raises when the cipher integer needs more than
32 bytes.  No corrupt-envelope error exists anywhere in the code. -/
inductive CodecError where
  | messageTooLong
  | invalidKey
  | valueOutOfRange
  deriving DecidableEq, Repr

/-- The 32-byte pre-XOR envelope block of `sealMessage`: byte 0 is the payload
length, bytes 1..1+len are the payload, the rest is zero padding. -/
def envelopeBlock (encoded : List Nat) : List Nat :=
  encoded.length :: (encoded ++ List.replicate (31 - encoded.length) 0)

/-- `sealMessage` (src/ui/src/utils/messages.ts lines 19–37). -/
def sealMessage (message : String) (groupKey : String) : Except CodecError Nat :=
  match deriveKeyBytes groupKey with
  | none => .error .invalidKey
  | some keyBytes =>
    let encoded := utf8Encode message
    if encoded.length > 31 then .error .messageTooLong
    else .ok (bytesToNat (List.zipWith Nat.xor (envelopeBlock encoded) keyBytes))

/-- The length byte `openMessage` recovers at offset 0 after the XOR. -/
def recoveredLen (cipherValue : Nat) (keyBytes : List Nat) : Nat :=
  (natToBytesBE 32 cipherValue).getD 0 0 ^^^ keyBytes.getD 0 0

/-- `openMessage` (src/ui/src/utils/messages.ts lines 39–49): XOR the 32-byte
rendering of the cipher with the key stream, then decode
`plain.slice(1, 1 + plain[0])` as UTF-8.  JavaScript `slice` clamps the range
and `TextDecoder` substitutes U+FFFD, so no corrupt-envelope failure occurs. -/
def openMessage (cipherValue : Nat) (groupKey : String) : Except CodecError String :=
  match deriveKeyBytes groupKey with
  | none => .error .invalidKey
  | some keyBytes =>
    if cipherValue < 2 ^ 256 then
      let plain := List.zipWith Nat.xor (natToBytesBE 32 cipherValue) keyBytes
      let length := plain.getD 0 0
      let slice := (plain.drop 1).take length
      .ok (utf8Decode slice)
    else .error .valueOutOfRange

/-! ## The ZVerseGroups registry contract (src/contracts/ZVerseGroups.sol)

Principals (addresses) and ciphertext handles are `Nat`.  The external FHE
co-processor is modelled as an opaque handle allocator (`nextHandle`) plus the
access-control list it enforces: `FHE.allow h a` sets `acl h a`,
`FHE.allowThis h` sets `aclThis h`, `FHE.isAllowed h a` reads `acl h a`, and
`FHE.asEaddress` / `FHE.fromExternal` return a fresh handle. -/

/-- One message record (`struct Message`). -/
structure Message where
  sender : Nat
  encryptedContent : Nat
  timestamp : Nat
  deriving DecidableEq, Repr

/-- One group record (`struct Group`). -/
structure Group where
  name : String
  encryptedKey : Nat
  creator : Nat
  members : List Nat
  isMember : Nat → Bool

/-- The contract storage plus the FHE co-processor's ACL. -/
structure RegistryState where
  groups : List Group
  groupMessages : Nat → List Message
  acl : Nat → Nat → Bool
  aclThis : Nat → Bool
  nextHandle : Nat

/-- Errors raised by the contract's `require` guards and array accesses. -/
inductive ContractError where
  | nameRequired
  | invalidGroup
  | alreadyMember
  | notMember
  | indexOutOfRange
  deriving DecidableEq, Repr

/-- Storage of a freshly deployed contract. -/
def initialState : RegistryState :=
  { groups := []
    groupMessages := fun _ => []
    acl := fun _ _ => false
    aclThis := fun _ => false
    nextHandle := 0 }

/-- `FHE.allow handle account` on the modelled ACL. -/
def aclAllow (acl : Nat → Nat → Bool) (handle account : Nat) : Nat → Nat → Bool :=
  fun h a => if h = handle ∧ a = account then true else acl h a

/-- Default group record used with total list indexing (`List.getD`); the
contract's `validGroup` guard keeps it from ever being observed. -/
def dummyGroup : Group := ⟨"", 0, 0, [], fun _ => false⟩

/-- `createGroup(name)` called by `sender` (lines 39–60): push a group whose
only member is the creator, allocate the encrypted key handle, grant it to the
contract and to the creator, return the new id. -/
def createGroup (name : String) (sender : Nat) (s : RegistryState) :
    Except ContractError (RegistryState × Nat) :=
  if name.data.length = 0 then .error .nameRequired
  else
    let groupId := s.groups.length
    let encryptedKey := s.nextHandle
    let g : Group :=
      { name := name
        encryptedKey := encryptedKey
        creator := sender
        members := [sender]
        isMember := fun a => if a = sender then true else false }
    .ok ({ s with
            groups := s.groups ++ [g]
            acl := aclAllow s.acl encryptedKey sender
            aclThis := fun h => if h = encryptedKey then true else s.aclThis h
            nextHandle := s.nextHandle + 1 }, groupId)

/-- `joinGroup(groupId)` called by `sender` (lines 64–79): record membership,
grant the key handle, then grant every existing message handle. -/
def joinGroup (groupId : Nat) (sender : Nat) (s : RegistryState) :
    Except ContractError RegistryState :=
  if groupId < s.groups.length then
    let g := s.groups.getD groupId dummyGroup
    if g.isMember sender then .error .alreadyMember
    else
      let g' : Group :=
        { g with
            members := g.members ++ [sender]
            isMember := fun a => if a = sender then true else g.isMember a }
      let aclKey := aclAllow s.acl g.encryptedKey sender
      let acl' := (s.groupMessages groupId).foldl
        (fun acl m => aclAllow acl m.encryptedContent sender) aclKey
      .ok { s with groups := s.groups.set groupId g', acl := acl' }
  else .error .invalidGroup

/-- `sendMessage(groupId, encryptedMessage, inputProof)` called by `sender` at
ledger time `ts` (lines 85–106): import the external ciphertext as a fresh
handle, grant it to the contract and to every current member, then append the
message record. -/
def sendMessage (groupId : Nat) (sender : Nat) (ts : Nat) (s : RegistryState) :
    Except ContractError RegistryState :=
  if groupId < s.groups.length then
    let g := s.groups.getD groupId dummyGroup
    if g.isMember sender then
      let stored := s.nextHandle
      let acl' := g.members.foldl (fun acl a => aclAllow acl stored a) s.acl
      .ok { s with
              groupMessages := fun gid =>
                if gid = groupId then
                  s.groupMessages gid ++ [⟨sender, stored, ts⟩]
                else s.groupMessages gid
              acl := acl'
              aclThis := fun h => if h = stored then true else s.aclThis h
              nextHandle := s.nextHandle + 1 }
    else .error .notMember
  else .error .invalidGroup

/-- `canDecryptGroupKey(groupId, account)` (lines 143–145). -/
def canDecryptGroupKey (groupId account : Nat) (s : RegistryState) :
    Except ContractError Bool :=
  if groupId < s.groups.length then
    .ok (s.acl ((s.groups.getD groupId dummyGroup).encryptedKey) account)
  else .error .invalidGroup

/-- `canDecryptMessage(groupId, index, account)` (lines 147–154); an index past
the end is a storage-array bounds failure. -/
def canDecryptMessage (groupId index account : Nat) (s : RegistryState) :
    Except ContractError Bool :=
  if groupId < s.groups.length then
    match (s.groupMessages groupId).get? index with
    | some m => .ok (s.acl m.encryptedContent account)
    | none => .error .indexOutOfRange
  else .error .invalidGroup

/-- `getGroupMembers(groupId)` (lines 119–121). -/
def getGroupMembers (groupId : Nat) (s : RegistryState) :
    Except ContractError (List Nat) :=
  if groupId < s.groups.length then
    .ok (s.groups.getD groupId dummyGroup).members
  else .error .invalidGroup

/-! ## Transactions and reachability -/

/-- One submitted transaction against the registry. -/
inductive Tx where
  | create (name : String) (sender : Nat)
  | join (groupId : Nat) (sender : Nat)
  | send (groupId : Nat) (sender : Nat) (ts : Nat)

/-- Ledger semantics of one transaction: a failed `require` aborts atomically,
leaving the state unchanged. -/
def applyTx (tx : Tx) (s : RegistryState) : RegistryState :=
  match tx with
  | .create name sender =>
    match createGroup name sender s with
    | .ok (s', _) => s'
    | .error _ => s
  | .join gid sender =>
    match joinGroup gid sender s with
    | .ok s' => s'
    | .error _ => s
  | .send gid sender ts =>
    match sendMessage gid sender ts s with
    | .ok s' => s'
    | .error _ => s

/-- States reachable from a fresh deployment by any transaction sequence. -/
inductive Reachable : RegistryState → Prop where
  | init : Reachable initialState
  | step {s : RegistryState} (tx : Tx) : Reachable s → Reachable (applyTx tx s)

/-- The membership invariant of the data model: every group has a non-empty,
duplicate-free member list containing its creator, and the `isMember` mapping
agrees exactly with the list. -/
def MembersInvariant (s : RegistryState) : Prop :=
  ∀ g ∈ s.groups,
    g.members ≠ [] ∧ g.creator ∈ g.members ∧ g.members.Nodup ∧
      ∀ a, g.isMember a = true ↔ a ∈ g.members

/-! ## ACL lemmas: grants are monotone and the grant loops reach every item -/

theorem aclAllow_preserves {acl : Nat → Nat → Bool} {h a : Nat}
    (hp : acl h a = true) (h' a' : Nat) : aclAllow acl h' a' h a = true := by
  unfold aclAllow
  by_cases hc : h = h' ∧ a = a' <;> simp [hc, hp]

theorem foldl_allow_preserves {α : Type} (f : α → Nat) (who : Nat) (l : List α)
    {acl : Nat → Nat → Bool} {h a : Nat} (hp : acl h a = true) :
    (l.foldl (fun acl m => aclAllow acl (f m) who) acl) h a = true := by
  induction l generalizing acl with
  | nil => exact hp
  | cons x xs ih => exact ih (aclAllow_preserves hp (f x) who)

theorem foldl_allow_grants {α : Type} (f : α → Nat) (who : Nat) (l : List α)
    (acl : Nat → Nat → Bool) {x : α} (hx : x ∈ l) :
    (l.foldl (fun acl m => aclAllow acl (f m) who) acl) (f x) who = true := by
  induction l generalizing acl with
  | nil => cases hx
  | cons y ys ih =>
    rcases List.mem_cons.mp hx with rfl | hmem
    · exact foldl_allow_preserves f who ys (by simp [aclAllow])
    · exact ih _ hmem

theorem foldl_allowAcct_preserves (handle : Nat) (l : List Nat)
    {acl : Nat → Nat → Bool} {h a : Nat} (hp : acl h a = true) :
    (l.foldl (fun acl b => aclAllow acl handle b) acl) h a = true := by
  induction l generalizing acl with
  | nil => exact hp
  | cons x xs ih => exact ih (aclAllow_preserves hp handle x)

theorem foldl_allowAcct_grants (handle : Nat) (l : List Nat)
    (acl : Nat → Nat → Bool) {x : Nat} (hx : x ∈ l) :
    (l.foldl (fun acl b => aclAllow acl handle b) acl) handle x = true := by
  induction l generalizing acl with
  | nil => cases hx
  | cons y ys ih =>
    rcases List.mem_cons.mp hx with rfl | hmem
    · exact foldl_allowAcct_preserves handle ys (by simp [aclAllow])
    · exact ih _ hmem

/-! ## Claim C1: retroactive grant on join -/

/-- C1.  Retroactive grant on join: for a valid `groupId`, a principal `A` who
is not yet a member, and an existing message history `m0..mk`, `joinGroup`
succeeds, appends `A` to `members`, makes `canDecryptGroupKey` true for `A`,
and makes `canDecryptMessage` true for `A` at every index `i ≤ k`. -/
theorem joinGroup_retroactive_grant
    (s : RegistryState) (groupId A k : Nat)
    (hg : groupId < s.groups.length)
    (hm : (s.groups.getD groupId dummyGroup).isMember A = false)
    (hk : (s.groupMessages groupId).length = k + 1) :
    joinGroup groupId A s = .ok (applyTx (.join groupId A) s) ∧
    getGroupMembers groupId (applyTx (.join groupId A) s) =
      .ok ((s.groups.getD groupId dummyGroup).members ++ [A]) ∧
    canDecryptGroupKey groupId A (applyTx (.join groupId A) s) = .ok true ∧
    ∀ i ≤ k, canDecryptMessage groupId i A (applyTx (.join groupId A) s) = .ok true := by
  have hgd : s.groups.getD groupId dummyGroup = s.groups[groupId] :=
    List.getD_eq_getElem s.groups dummyGroup hg
  have hm' : s.groups[groupId].isMember A = false := by rw [← hgd]; exact hm
  have hjoin : joinGroup groupId A s = .ok
      { s with
          groups := s.groups.set groupId
            { s.groups.getD groupId dummyGroup with
                members := (s.groups.getD groupId dummyGroup).members ++ [A]
                isMember := fun a => if a = A then true
                  else (s.groups.getD groupId dummyGroup).isMember a }
          acl := (s.groupMessages groupId).foldl
            (fun acl m => aclAllow acl m.encryptedContent A)
            (aclAllow s.acl (s.groups.getD groupId dummyGroup).encryptedKey A) } := by
    simp [joinGroup, hg, hm', hgd]
  simp only [applyTx, hjoin]
  refine ⟨trivial, ?_, ?_, ?_⟩
  · simp only [getGroupMembers, List.length_set, hg, if_pos]
    simp [List.getD_eq_getElem?_getD, List.getElem?_set_self hg]
  · simp only [canDecryptGroupKey, List.length_set, hg, if_pos]
    simp only [List.getD_eq_getElem?_getD, List.getElem?_set_self hg, Option.getD_some]
    have := @foldl_allow_preserves Message (fun m : Message => m.encryptedContent) A
      (s.groupMessages groupId)
      (aclAllow s.acl (s.groups.getD groupId dummyGroup).encryptedKey A)
      ((s.groups.getD groupId dummyGroup).encryptedKey) A
      (by simp [aclAllow])
    simpa [List.getD_eq_getElem?_getD] using this
  · intro i hi
    have hlen : i < (s.groupMessages groupId).length := by omega
    simp only [canDecryptMessage, List.length_set, hg, if_pos]
    rw [List.get?_eq_getElem?, List.getElem?_eq_getElem hlen]
    have hmem : (s.groupMessages groupId)[i] ∈ s.groupMessages groupId :=
      List.getElem_mem hlen
    have := foldl_allow_grants (fun m : Message => m.encryptedContent) A
      (s.groupMessages groupId)
      (aclAllow s.acl (s.groups.getD groupId dummyGroup).encryptedKey A) hmem
    simpa [List.getD_eq_getElem?_getD] using this

/-- C1 witness: in the concrete state where principal 7 created group 0 and
sent one message, principal 9 joins and can decrypt the key and message 0. -/
theorem joinGroup_retroactive_grant_witness :
    joinGroup 0 9 (applyTx (.send 0 7 11) (applyTx (.create ("alpha") 7) initialState)) =
      .ok (applyTx (.join 0 9)
        (applyTx (.send 0 7 11) (applyTx (.create ("alpha") 7) initialState))) ∧
    canDecryptGroupKey 0 9 (applyTx (.join 0 9)
      (applyTx (.send 0 7 11) (applyTx (.create ("alpha") 7) initialState))) = .ok true ∧
    canDecryptMessage 0 0 9 (applyTx (.join 0 9)
      (applyTx (.send 0 7 11) (applyTx (.create ("alpha") 7) initialState))) = .ok true := by
  have h := joinGroup_retroactive_grant
    (applyTx (.send 0 7 11) (applyTx (.create ("alpha") 7) initialState)) 0 9 0
    (by decide) (by decide) (by decide)
  exact ⟨h.1, h.2.2.1, h.2.2.2 0 (Nat.le_refl 0)⟩

/-! ## Claim C2: forward grant on send -/

/-- C2.  Forward grant on send: a current member `B` sending at time `ts`
appends exactly one message record with sender `B`, and every principal that
is a member at call time can decrypt the new message's index. -/
theorem sendMessage_forward_grant
    (s : RegistryState) (groupId B ts : Nat)
    (hg : groupId < s.groups.length)
    (hm : (s.groups.getD groupId dummyGroup).isMember B = true) :
    sendMessage groupId B ts s = .ok (applyTx (.send groupId B ts) s) ∧
    (applyTx (.send groupId B ts) s).groupMessages groupId =
      s.groupMessages groupId ++ [⟨B, s.nextHandle, ts⟩] ∧
    ∀ a ∈ (s.groups.getD groupId dummyGroup).members,
      canDecryptMessage groupId ((s.groupMessages groupId).length) a
        (applyTx (.send groupId B ts) s) = .ok true := by
  have hsend : sendMessage groupId B ts s = .ok
      { s with
          groupMessages := fun gid =>
            if gid = groupId then s.groupMessages gid ++ [⟨B, s.nextHandle, ts⟩]
            else s.groupMessages gid
          acl := (s.groups.getD groupId dummyGroup).members.foldl
            (fun acl a => aclAllow acl s.nextHandle a) s.acl
          aclThis := fun h => if h = s.nextHandle then true else s.aclThis h
          nextHandle := s.nextHandle + 1 } := by
    have hgd : s.groups.getD groupId dummyGroup = s.groups[groupId] :=
      List.getD_eq_getElem s.groups dummyGroup hg
    have hm' : s.groups[groupId].isMember B = true := by rw [← hgd]; exact hm
    simp [sendMessage, hg, hm', hgd]
  simp only [applyTx, hsend]
  refine ⟨trivial, by simp, ?_⟩
  intro a ha
  simp only [canDecryptMessage, hg, if_pos, if_true]
  rw [List.get?_eq_getElem?, List.getElem?_concat_length]
  have := foldl_allowAcct_grants s.nextHandle
    (s.groups.getD groupId dummyGroup).members s.acl ha
  simpa [List.getD_eq_getElem?_getD] using this

/-- C2 witness: with members 7, 8, 9 in group 0, member 8 sends a message and
each of the three members can decrypt it at its new index 0. -/
theorem sendMessage_forward_grant_witness :
    (applyTx (.send 0 8 5)
        (applyTx (.join 0 9) (applyTx (.join 0 8)
          (applyTx (.create ("alpha") 7) initialState)))).groupMessages 0 =
      [⟨8, 1, 5⟩] ∧
    canDecryptMessage 0 0 7 (applyTx (.send 0 8 5)
      (applyTx (.join 0 9) (applyTx (.join 0 8)
        (applyTx (.create ("alpha") 7) initialState)))) = .ok true ∧
    canDecryptMessage 0 0 8 (applyTx (.send 0 8 5)
      (applyTx (.join 0 9) (applyTx (.join 0 8)
        (applyTx (.create ("alpha") 7) initialState)))) = .ok true ∧
    canDecryptMessage 0 0 9 (applyTx (.send 0 8 5)
      (applyTx (.join 0 9) (applyTx (.join 0 8)
        (applyTx (.create ("alpha") 7) initialState)))) = .ok true := by
  have h := sendMessage_forward_grant
    (applyTx (.join 0 9) (applyTx (.join 0 8) (applyTx (.create ("alpha") 7) initialState)))
    0 8 5 (by decide) (by decide)
  exact ⟨h.2.1.trans (by decide), h.2.2 7 (by decide), h.2.2 8 (by decide),
    h.2.2 9 (by decide)⟩

/-! ## Claim C5: idempotent join guard -/

/-- C5.  Idempotent join guard: a `joinGroup` by a principal who is already a
member of a valid group fails with `AlreadyMember`, and the transaction leaves
the whole registry state (in particular `members`) unchanged. -/
theorem joinGroup_already_member
    (s : RegistryState) (groupId A : Nat)
    (hg : groupId < s.groups.length)
    (hm : (s.groups.getD groupId dummyGroup).isMember A = true) :
    joinGroup groupId A s = .error .alreadyMember ∧
    applyTx (.join groupId A) s = s := by
  have hgd : s.groups.getD groupId dummyGroup = s.groups[groupId] :=
    List.getD_eq_getElem s.groups dummyGroup hg
  have hm' : s.groups[groupId].isMember A = true := by rw [← hgd]; exact hm
  have hj : joinGroup groupId A s = .error .alreadyMember := by
    simp [joinGroup, hg, hm']
  exact ⟨hj, by rw [applyTx, hj]⟩

/-! ## Claim C6: membership invariant -/

theorem membersInvariant_initial : MembersInvariant initialState := by
  intro g hg
  simp [initialState] at hg

theorem membersInvariant_create (name : String) (sender : Nat) (s : RegistryState)
    (hInv : MembersInvariant s) : MembersInvariant (applyTx (.create name sender) s) := by
  rw [applyTx]
  by_cases hname : name.data.length = 0
  · simp only [createGroup, hname, if_pos]
    exact hInv
  · simp only [createGroup, hname, if_neg, not_false_iff]
    intro g hg
    rcases List.mem_append.mp hg with hold | hnew
    · exact hInv g hold
    · have hgr := List.mem_singleton.mp hnew
      subst hgr
      refine ⟨by simp, by simp, by simp, ?_⟩
      intro a
      by_cases hae : a = sender <;> simp [hae]

theorem membersInvariant_join (groupId sender : Nat) (s : RegistryState)
    (hInv : MembersInvariant s) : MembersInvariant (applyTx (.join groupId sender) s) := by
  rw [applyTx]
  by_cases hg : groupId < s.groups.length
  · by_cases hm : (s.groups.getD groupId dummyGroup).isMember sender = true
    · simp only [joinGroup, hg, if_pos, hm, if_true]
      exact hInv
    · have hm' : (s.groups.getD groupId dummyGroup).isMember sender = false := by
        simpa using hm
      simp only [joinGroup, hg, if_pos, hm', Bool.false_eq_true, if_false]
      have hbase : s.groups.getD groupId dummyGroup ∈ s.groups := by
        rw [List.getD_eq_getElem s.groups dummyGroup hg]
        exact List.getElem_mem hg
      generalize hgb : s.groups.getD groupId dummyGroup = gb at hm' hbase ⊢
      obtain ⟨hne, hcr, hnd, hiff⟩ := hInv _ hbase
      have hnotmem : sender ∉ gb.members := by
        intro hin
        have := (hiff sender).mpr hin
        rw [this] at hm'
        cases hm'
      intro g hgmem
      rcases List.mem_or_eq_of_mem_set hgmem with hold | hnew
      · exact hInv g hold
      · subst hnew
        refine ⟨?_, ?_, ?_, ?_⟩
        · show gb.members ++ [sender] ≠ []
          simp
        · show gb.creator ∈ gb.members ++ [sender]
          exact List.mem_append.mpr (Or.inl hcr)
        · show (gb.members ++ [sender]).Nodup
          simpa [List.nodup_append] using ⟨hnd, hnotmem⟩
        · intro a
          show (if a = sender then true else gb.isMember a) = true ↔
            a ∈ gb.members ++ [sender]
          by_cases hae : a = sender <;> simp [hae, hiff a]
  · simp only [joinGroup, hg, if_neg, not_false_iff]
    exact hInv

theorem membersInvariant_send (groupId sender ts : Nat) (s : RegistryState)
    (hInv : MembersInvariant s) : MembersInvariant (applyTx (.send groupId sender ts) s) := by
  rw [applyTx]
  by_cases hg : groupId < s.groups.length
  · by_cases hm : (s.groups.getD groupId dummyGroup).isMember sender = true
    · simp only [sendMessage, hg, if_pos, hm, if_true]
      exact hInv
    · have hm' : (s.groups.getD groupId dummyGroup).isMember sender = false := by
        simpa using hm
      simp only [sendMessage, hg, if_pos, hm', Bool.false_eq_true, if_false]
      exact hInv
  · simp only [sendMessage, hg, if_neg, not_false_iff]
    exact hInv

/-- C6.  Membership invariant: in every state reachable by any sequence of
`createGroup`, `joinGroup` and `sendMessage` transactions, every existing
group has a non-empty member list that contains its creator and no duplicates,
and the `isMember` mapping holds exactly the principals of that list. -/
theorem reachable_membersInvariant (s : RegistryState) (h : Reachable s) :
    MembersInvariant s := by
  induction h with
  | init => exact membersInvariant_initial
  | step tx _ ih =>
    rename_i s' _
    cases tx with
    | create name sender => exact membersInvariant_create name sender s' ih
    | join gid sender => exact membersInvariant_join gid sender s' ih
    | send gid sender ts => exact membersInvariant_send gid sender ts s' ih

/-- C6 witness: the invariant instance for the concrete reachable state in
which principal 7 created a group and principal 9 joined it. -/
theorem reachable_membersInvariant_witness :
    MembersInvariant (applyTx (.join 0 9) (applyTx (.create ("alpha") 7) initialState)) :=
  reachable_membersInvariant _
    (Reachable.step _ (Reachable.step _ Reachable.init))

/-- C5 witness: the creator of group 0 attempts a second join and fails with
`AlreadyMember`, leaving the state unchanged. -/
theorem joinGroup_already_member_witness :
    joinGroup 0 7 (applyTx (.create ("alpha") 7) initialState) =
      .error .alreadyMember ∧
    applyTx (.join 0 7) (applyTx (.create ("alpha") 7) initialState) =
      applyTx (.create ("alpha") 7) initialState :=
  joinGroup_already_member (applyTx (.create ("alpha") 7) initialState) 0 7
    (by decide) (by decide)

/-! ## UTF-8 round trip -/

theorem char_valid_nat (c : Char) :
    c.toNat < 0xD800 ∨ (0xDFFF < c.toNat ∧ c.toNat < 0x110000) := by
  have h := c.valid
  unfold UInt32.isValidChar at h
  rcases h with h | ⟨h1, h2⟩
  · left
    exact UInt32.toNat_lt_of_lt (by decide) h
  · right
    exact ⟨UInt32.lt_toNat_of_lt (by decide) h1, UInt32.toNat_lt_of_lt (by decide) h2⟩

theorem utf8DecodeAux_encodeChar (c : Char) (rest : List Nat) :
    utf8DecodeAux (utf8EncodeChar c ++ rest) = c :: utf8DecodeAux rest := by
  have hvalid := char_valid_nat c
  have hofn : Char.ofNat c.toNat = c := Char.ofNat_toNat c
  set n := c.toNat with hn
  by_cases h1 : n < 0x80
  · simp only [utf8EncodeChar, ← hn, if_pos h1, List.cons_append, List.nil_append]
    rw [utf8DecodeAux.eq_def]
    simp only []
    rw [if_pos h1, hofn]
  · by_cases h2 : n < 0x800
    · have e1 : ¬ (0xC0 + n / 64 < 0x80) := by omega
      have e2 : ¬ (0xC0 + n / 64 < 0xC2) := by omega
      have e3 : 0xC0 + n / 64 < 0xE0 := by omega
      have e4 : isCont (0x80 + n % 64) = true := by
        simp only [isCont, Bool.and_eq_true, decide_eq_true_eq]
        omega
      simp only [utf8EncodeChar, ← hn, if_neg h1, if_pos h2, List.cons_append, List.nil_append]
      rw [utf8DecodeAux.eq_def]
      simp only []
      rw [if_neg e1, if_neg e2, if_pos e3, if_pos e4]
      rw [show (0xC0 + n / 64 - 0xC0) * 64 + (0x80 + n % 64 - 0x80) = n from by omega, hofn]
    · by_cases h3 : n < 0x10000
      · have e1 : ¬ (0xE0 + n / 4096 < 0x80) := by omega
        have e2 : ¬ (0xE0 + n / 4096 < 0xC2) := by omega
        have e3 : ¬ (0xE0 + n / 4096 < 0xE0) := by omega
        have e4 : 0xE0 + n / 4096 < 0xF0 := by omega
        have e7 : isCont (0x80 + n % 64) = true := by
          simp only [isCont, Bool.and_eq_true, decide_eq_true_eq]
          omega
        have econd : sndLo (0xE0 + n / 4096) ≤ 0x80 + n / 64 % 64 ∧
            0x80 + n / 64 % 64 < sndHi (0xE0 + n / 4096) := by
          by_cases hq0 : n / 4096 = 0
          · have hsl : sndLo (0xE0 + n / 4096) = 0xA0 := by
              unfold sndLo
              rw [if_pos (by omega)]
            have hsh : sndHi (0xE0 + n / 4096) = 0xC0 := by
              unfold sndHi
              rw [if_neg (by omega), if_neg (by omega)]
            rw [hsl, hsh]
            exact And.intro (by omega) (by omega)
          · by_cases hq13 : n / 4096 = 13
            · have hsl : sndLo (0xE0 + n / 4096) = 0x80 := by
                unfold sndLo
                rw [if_neg (by omega), if_neg (by omega)]
              have hsh : sndHi (0xE0 + n / 4096) = 0xA0 := by
                unfold sndHi
                rw [if_pos (by omega)]
              rw [hsl, hsh]
              exact And.intro (by omega) (by omega)
            · have hsl : sndLo (0xE0 + n / 4096) = 0x80 := by
                unfold sndLo
                rw [if_neg (by omega), if_neg (by omega)]
              have hsh : sndHi (0xE0 + n / 4096) = 0xC0 := by
                unfold sndHi
                rw [if_neg (by omega), if_neg (by omega)]
              rw [hsl, hsh]
              exact And.intro (by omega) (by omega)
        simp only [utf8EncodeChar, ← hn, if_neg h1, if_neg h2, if_pos h3, List.cons_append,
          List.nil_append]
        rw [utf8DecodeAux.eq_def]
        simp only []
        rw [if_neg e1, if_neg e2, if_neg e3, if_pos e4, if_pos econd, if_pos e7]
        rw [show (0xE0 + n / 4096 - 0xE0) * 4096 + (0x80 + n / 64 % 64 - 0x80) * 64 +
          (0x80 + n % 64 - 0x80) = n from by omega, hofn]
      · have h4 : n < 0x110000 := by omega
        have e1 : ¬ (0xF0 + n / 262144 < 0x80) := by omega
        have e2 : ¬ (0xF0 + n / 262144 < 0xC2) := by omega
        have e3 : ¬ (0xF0 + n / 262144 < 0xE0) := by omega
        have e4 : ¬ (0xF0 + n / 262144 < 0xF0) := by omega
        have e5 : 0xF0 + n / 262144 < 0xF5 := by omega
        have e8 : isCont (0x80 + n / 64 % 64) = true := by
          simp only [isCont, Bool.and_eq_true, decide_eq_true_eq]
          omega
        have e9 : isCont (0x80 + n % 64) = true := by
          simp only [isCont, Bool.and_eq_true, decide_eq_true_eq]
          omega
        have econd : sndLo (0xF0 + n / 262144) ≤ 0x80 + n / 4096 % 64 ∧
            0x80 + n / 4096 % 64 < sndHi (0xF0 + n / 262144) := by
          by_cases hq0 : n / 262144 = 0
          · have hsl : sndLo (0xF0 + n / 262144) = 0x90 := by
              unfold sndLo
              rw [if_neg (by omega), if_pos (by omega)]
            have hsh : sndHi (0xF0 + n / 262144) = 0xC0 := by
              unfold sndHi
              rw [if_neg (by omega), if_neg (by omega)]
            rw [hsl, hsh]
            exact And.intro (by omega) (by omega)
          · by_cases hq4 : n / 262144 = 4
            · have hsl : sndLo (0xF0 + n / 262144) = 0x80 := by
                unfold sndLo
                rw [if_neg (by omega), if_neg (by omega)]
              have hsh : sndHi (0xF0 + n / 262144) = 0x90 := by
                unfold sndHi
                rw [if_neg (by omega), if_pos (by omega)]
              rw [hsl, hsh]
              exact And.intro (by omega) (by omega)
            · have hsl : sndLo (0xF0 + n / 262144) = 0x80 := by
                unfold sndLo
                rw [if_neg (by omega), if_neg (by omega)]
              have hsh : sndHi (0xF0 + n / 262144) = 0xC0 := by
                unfold sndHi
                rw [if_neg (by omega), if_neg (by omega)]
              rw [hsl, hsh]
              exact And.intro (by omega) (by omega)
        simp only [utf8EncodeChar, ← hn, if_neg h1, if_neg h2, if_neg h3, List.cons_append,
          List.nil_append]
        rw [utf8DecodeAux.eq_def]
        simp only []
        rw [if_neg e1, if_neg e2, if_neg e3, if_neg e4, if_pos e5, if_pos econd, if_pos e8,
          if_pos e9]
        rw [show (0xF0 + n / 262144 - 0xF0) * 262144 + (0x80 + n / 4096 % 64 - 0x80) * 4096 +
          (0x80 + n / 64 % 64 - 0x80) * 64 + (0x80 + n % 64 - 0x80) = n from by omega, hofn]

theorem utf8DecodeAux_encode (cs : List Char) :
    utf8DecodeAux (cs.flatMap utf8EncodeChar) = cs := by
  induction cs with
  | nil => rfl
  | cons c cs ih => rw [List.flatMap_cons, utf8DecodeAux_encodeChar, ih]

theorem utf8Decode_utf8Encode (s : String) : utf8Decode (utf8Encode s) = s := by
  unfold utf8Decode utf8Encode
  rw [utf8DecodeAux_encode]

theorem utf8EncodeChar_lt (c : Char) : ∀ b ∈ utf8EncodeChar c, b < 256 := by
  have hvalid := char_valid_nat c
  intro b hb
  simp only [utf8EncodeChar] at hb
  split_ifs at hb <;> simp at hb <;> omega

theorem utf8Encode_lt (s : String) : ∀ b ∈ utf8Encode s, b < 256 := by
  intro b hb
  unfold utf8Encode at hb
  obtain ⟨c, _, hbc⟩ := List.mem_flatMap.mp hb
  exact utf8EncodeChar_lt c b hbc

/-! ## Byte-level lemmas for the codec -/

theorem keccak256_length (msg : List Nat) : (keccak256 msg).length = 32 := by
  simp [keccak256]

theorem keccak256_lt (msg : List Nat) : ∀ b ∈ keccak256 msg, b < 256 := by
  intro b hb
  simp only [keccak256, List.mem_map, List.mem_range] at hb
  obtain ⟨k, _, rfl⟩ := hb
  exact Nat.mod_lt _ (by norm_num)

theorem bytesToNat_append_one (bs : List Nat) (b : Nat) :
    bytesToNat (bs ++ [b]) = bytesToNat bs * 256 + b := by
  simp [bytesToNat, List.foldl_append]

theorem bytesToNat_lt (bs : List Nat) (h : ∀ b ∈ bs, b < 256) :
    bytesToNat bs < 256 ^ bs.length := by
  induction bs using List.reverseRecOn with
  | nil => simp [bytesToNat]
  | append_singleton bs b ih =>
    rw [bytesToNat_append_one, List.length_append, List.length_singleton, pow_succ]
    have hb : b < 256 := h b (by simp)
    have hbs : bytesToNat bs < 256 ^ bs.length := ih fun x hx => h x (by simp [hx])
    calc bytesToNat bs * 256 + b < (bytesToNat bs + 1) * 256 := by omega
    _ ≤ 256 ^ bs.length * 256 := Nat.mul_le_mul_right 256 hbs

theorem natToBytesBE_bytesToNat (bs : List Nat) (h : ∀ b ∈ bs, b < 256) :
    natToBytesBE bs.length (bytesToNat bs) = bs := by
  induction bs using List.reverseRecOn with
  | nil => rfl
  | append_singleton bs b ih =>
    rw [List.length_append, List.length_singleton, bytesToNat_append_one]
    have hb : b < 256 := h b (by simp)
    rw [natToBytesBE]
    rw [show (bytesToNat bs * 256 + b) / 256 = bytesToNat bs from by omega]
    rw [show (bytesToNat bs * 256 + b) % 256 = b from by omega]
    rw [ih fun x hx => h x (by simp [hx])]

theorem zipWith_xor_cancel (a k : List Nat) (h : a.length = k.length) :
    List.zipWith Nat.xor (List.zipWith Nat.xor a k) k = a := by
  induction a generalizing k with
  | nil => simp
  | cons x xs ih =>
    cases k with
    | nil => simp at h
    | cons y ys =>
      simp only [List.zipWith]
      rw [ih ys (by simpa using h)]
      have hxy : Nat.xor (Nat.xor x y) y = x := by
        rw [show Nat.xor (Nat.xor x y) y = x ^^^ y ^^^ y from rfl, Nat.xor_assoc,
          Nat.xor_self, Nat.xor_zero]
      rw [hxy]

theorem zipWith_xor_lt (a k : List Nat) (ha : ∀ b ∈ a, b < 256) (hk : ∀ b ∈ k, b < 256) :
    ∀ b ∈ List.zipWith Nat.xor a k, b < 256 := by
  induction a generalizing k with
  | nil => simp
  | cons x xs ih =>
    cases k with
    | nil => simp
    | cons y ys =>
      intro b hb
      simp only [List.zipWith, List.mem_cons] at hb
      rcases hb with rfl | hb
      · have hx : x < 2 ^ 8 := ha x (by simp)
        have hy : y < 2 ^ 8 := hk y (by simp)
        exact Nat.xor_lt_two_pow hx hy
      · exact ih ys (fun z hz => ha z (by simp [hz])) (fun z hz => hk z (by simp [hz])) b hb

theorem envelopeBlock_length (enc : List Nat) (h : enc.length ≤ 31) :
    (envelopeBlock enc).length = 32 := by
  simp [envelopeBlock]
  omega

theorem envelopeBlock_lt (enc : List Nat) (hlen : enc.length ≤ 31)
    (h : ∀ b ∈ enc, b < 256) : ∀ b ∈ envelopeBlock enc, b < 256 := by
  intro b hb
  simp only [envelopeBlock, List.mem_cons, List.mem_append, List.mem_replicate] at hb
  rcases hb with rfl | hb | hb
  · omega
  · exact h b hb
  · omega

theorem natToBytesBE_length (w v : Nat) : (natToBytesBE w v).length = w := by
  induction w generalizing v with
  | zero => rfl
  | succ w ih => simp [natToBytesBE, ih]

theorem zipWith_xor_getD_zero (a k : List Nat) (ha : a ≠ []) (hk : k ≠ []) :
    (List.zipWith Nat.xor a k).getD 0 0 = Nat.xor (a.getD 0 0) (k.getD 0 0) := by
  obtain ⟨x, xs, rfl⟩ := List.exists_cons_of_ne_nil ha
  obtain ⟨y, ys, rfl⟩ := List.exists_cons_of_ne_nil hk
  rfl

/-- Facts about a successfully derived key stream: it is keccak256 output, so
it has exactly 32 bytes, all below 256. -/
theorem deriveKeyBytes_spec (k : String) (kb : List Nat)
    (hkey : deriveKeyBytes k = some kb) :
    kb.length = 32 ∧ ∀ b ∈ kb, b < 256 := by
  unfold deriveKeyBytes at hkey
  obtain ⟨raw, _, rfl⟩ := Option.map_eq_some'.mp hkey
  exact ⟨keccak256_length raw, keccak256_lt raw⟩

/-! ## Claim C3: codec round trip -/

/-- C3.  Round trip: for every string whose UTF-8 encoding fits in 31 bytes
and every group secret accepted by the key-derivation step, opening the sealed
message with the same secret returns the original string. -/
theorem openMessage_sealMessage (m k : String) (kb : List Nat)
    (hkey : deriveKeyBytes k = some kb)
    (hlen : (utf8Encode m).length ≤ 31) :
    Except.bind (sealMessage m k) (fun c => openMessage c k) = .ok m := by
  obtain ⟨hkl, hklt⟩ := deriveKeyBytes_spec k kb hkey
  have henc_lt := utf8Encode_lt m
  have hblen : (envelopeBlock (utf8Encode m)).length = 32 :=
    envelopeBlock_length (utf8Encode m) hlen
  have hblt : ∀ b ∈ envelopeBlock (utf8Encode m), b < 256 :=
    envelopeBlock_lt (utf8Encode m) hlen henc_lt
  have hxlen : (List.zipWith Nat.xor (envelopeBlock (utf8Encode m)) kb).length = 32 := by
    simp [List.length_zipWith, hblen, hkl]
  have hxlt : ∀ b ∈ List.zipWith Nat.xor (envelopeBlock (utf8Encode m)) kb, b < 256 :=
    zipWith_xor_lt _ _ hblt hklt
  have hcbound : bytesToNat (List.zipWith Nat.xor (envelopeBlock (utf8Encode m)) kb) <
      2 ^ 256 := by
    have hlt := bytesToNat_lt _ hxlt
    rw [hxlen] at hlt
    calc bytesToNat (List.zipWith Nat.xor (envelopeBlock (utf8Encode m)) kb)
        < 256 ^ 32 := hlt
    _ = 2 ^ 256 := by norm_num
  have hseal : sealMessage m k = .ok
      (bytesToNat (List.zipWith Nat.xor (envelopeBlock (utf8Encode m)) kb)) := by
    unfold sealMessage
    rw [hkey]
    simp only []
    rw [if_neg (by omega)]
  rw [hseal]
  show openMessage (bytesToNat (List.zipWith Nat.xor (envelopeBlock (utf8Encode m)) kb)) k =
    .ok m
  unfold openMessage
  rw [hkey]
  simp only []
  rw [if_pos hcbound]
  have hrt : natToBytesBE 32
      (bytesToNat (List.zipWith Nat.xor (envelopeBlock (utf8Encode m)) kb)) =
      List.zipWith Nat.xor (envelopeBlock (utf8Encode m)) kb := by
    have hr := natToBytesBE_bytesToNat _ hxlt
    rw [hxlen] at hr
    exact hr
  rw [hrt]
  have hcancel :
      List.zipWith Nat.xor (List.zipWith Nat.xor (envelopeBlock (utf8Encode m)) kb) kb =
      envelopeBlock (utf8Encode m) := zipWith_xor_cancel _ _ (by rw [hblen, hkl])
  rw [hcancel]
  have hhead : (envelopeBlock (utf8Encode m)).getD 0 0 = (utf8Encode m).length := rfl
  rw [hhead]
  have hslice : ((envelopeBlock (utf8Encode m)).drop 1).take (utf8Encode m).length =
      utf8Encode m := by
    show ((utf8Encode m) ++ List.replicate (31 - (utf8Encode m).length) 0).take
      (utf8Encode m).length = utf8Encode m
    exact List.take_left _ _
  rw [hslice, utf8Decode_utf8Encode]

set_option maxRecDepth 100000 in
/-- C3 witness: sealing then opening the string "Hello" with secret "0xab"
returns "Hello". -/
theorem openMessage_sealMessage_witness :
    Except.bind (sealMessage ("Hello") ("0xab")) (fun c => openMessage c ("0xab")) =
      .ok ("Hello") :=
  openMessage_sealMessage ("Hello") ("0xab") (keccak256 [0xab]) (by decide) (by decide)

/-! ## Claim C9: totality of openMessage -/

/-- C9.  Implicit totality of open: for every cipher integer below 2^256 and
every accepted group key, `openMessage` returns the replacement-decoding of
the clamped slice (never a failure), and when the recovered length byte
exceeds 31 the slice is silently clamped to the 31 available bytes. -/
theorem openMessage_total (cipher : Nat) (k : String) (kb : List Nat)
    (hc : cipher < 2 ^ 256) (hkey : deriveKeyBytes k = some kb) :
    openMessage cipher k = .ok (utf8Decode
      (((List.zipWith Nat.xor (natToBytesBE 32 cipher) kb).drop 1).take
        (recoveredLen cipher kb))) ∧
    (31 < recoveredLen cipher kb →
      ((List.zipWith Nat.xor (natToBytesBE 32 cipher) kb).drop 1).take
        (recoveredLen cipher kb) =
        (List.zipWith Nat.xor (natToBytesBE 32 cipher) kb).drop 1) := by
  obtain ⟨hkl, _⟩ := deriveKeyBytes_spec k kb hkey
  have hplen : (List.zipWith Nat.xor (natToBytesBE 32 cipher) kb).length = 32 := by
    simp [List.length_zipWith, natToBytesBE_length, hkl]
  have hbne : natToBytesBE 32 cipher ≠ [] := by
    intro he
    have := natToBytesBE_length 32 cipher
    rw [he] at this
    cases this
  have hkne : kb ≠ [] := by
    intro he
    rw [he] at hkl
    cases hkl
  have hhead : (List.zipWith Nat.xor (natToBytesBE 32 cipher) kb).getD 0 0 =
      recoveredLen cipher kb := by
    rw [zipWith_xor_getD_zero _ _ hbne hkne]
    rfl
  constructor
  · unfold openMessage
    rw [hkey]
    simp only []
    rw [if_pos hc, hhead]
  · intro hgt
    apply List.take_of_length_le
    rw [List.length_drop, hplen]
    omega

set_option maxRecDepth 100000 in
/-- C9 witness: at cipher 0xFF·2^248 with secret "0x" the recovered length
byte is 58, the slice clamps to the 31 available bytes, and openMessage still
returns a string. -/
theorem openMessage_total_witness :
    openMessage (0xFF * 2 ^ 248) ("0x") = .ok (utf8Decode
      (((List.zipWith Nat.xor (natToBytesBE 32 (0xFF * 2 ^ 248)) (keccak256 [])).drop 1).take
        (recoveredLen (0xFF * 2 ^ 248) (keccak256 [])))) ∧
    ((List.zipWith Nat.xor (natToBytesBE 32 (0xFF * 2 ^ 248)) (keccak256 [])).drop 1).take
        (recoveredLen (0xFF * 2 ^ 248) (keccak256 [])) =
      (List.zipWith Nat.xor (natToBytesBE 32 (0xFF * 2 ^ 248)) (keccak256 [])).drop 1 := by
  have h := openMessage_total (0xFF * 2 ^ 248) ("0x") (keccak256 [])
    (by norm_num) (by decide)
  exact ⟨h.1, h.2 (by decide)⟩

/-! ## Claim C4: corruption handling of openMessage -/

set_option maxRecDepth 100000 in
/-- C4 counterexample: at cipher 0xFF·2^248 with secret "0x" the recovered
length byte is 58 > 31, yet `openMessage` succeeds with a best-effort string
instead of failing with a corrupt-envelope error (no such error exists in the
code). -/
theorem openMessage_corrupt_cex :
    recoveredLen (0xFF * 2 ^ 248) (keccak256 []) = 58 ∧
    (openMessage (0xFF * 2 ^ 248) ("0x")).isOk = true := by decide

/-- C4 amended: `openMessage` never fails on any in-range cipher under any
accepted key — an out-of-range recovered length byte is clamped and malformed
UTF-8 is decoded with replacement characters, so no `CorruptEnvelope` failure
is ever raised (and the function never panics). -/
theorem openMessage_never_corrupt (cipher : Nat) (k : String) (kb : List Nat)
    (hc : cipher < 2 ^ 256) (hkey : deriveKeyBytes k = some kb) :
    (openMessage cipher k).isOk = true := by
  unfold openMessage
  rw [hkey]
  simp only []
  rw [if_pos hc]
  rfl

set_option maxRecDepth 100000 in
/-- C4 amended witness: the corrupt input of the counterexample still opens
without failure. -/
theorem openMessage_never_corrupt_witness :
    (openMessage (0xFF * 2 ^ 248) ("0x")).isOk = true :=
  openMessage_never_corrupt (0xFF * 2 ^ 248) ("0x") (keccak256 [])
    (by norm_num) (by decide)

/-! ## Claim C7: seal length bound and envelope layout -/

/-- C7.  Length bound: under an accepted key, `sealMessage` fails with
`MessageTooLong` exactly when the UTF-8 encoding of the message exceeds 31
bytes; otherwise the pre-XOR block is 32 bytes with byte 0 the payload length
and bytes 1..1+len the payload. -/
theorem sealMessage_length_bound (m k : String) (kb : List Nat)
    (hkey : deriveKeyBytes k = some kb) :
    (sealMessage m k = .error .messageTooLong ↔ 31 < (utf8Encode m).length) ∧
    ((utf8Encode m).length ≤ 31 →
      (envelopeBlock (utf8Encode m)).length = 32 ∧
      (envelopeBlock (utf8Encode m)).getD 0 0 = (utf8Encode m).length ∧
      ((envelopeBlock (utf8Encode m)).drop 1).take (utf8Encode m).length =
        utf8Encode m) := by
  constructor
  · unfold sealMessage
    rw [hkey]
    simp only []
    by_cases hlen : 31 < (utf8Encode m).length
    · rw [if_pos (by omega)]
      simp [hlen]
    · rw [if_neg (by omega)]
      simp [hlen]
  · intro hle
    refine ⟨envelopeBlock_length _ hle, rfl, ?_⟩
    show ((utf8Encode m) ++ List.replicate (31 - (utf8Encode m).length) 0).take
      (utf8Encode m).length = utf8Encode m
    exact List.take_left _ _

set_option maxRecDepth 100000 in
/-- C7 witness: a 32-byte message is rejected with `MessageTooLong`, and the
2-byte message "Hi" produces an envelope with length byte 2. -/
theorem sealMessage_length_bound_witness :
    sealMessage ("aaaaaaaaaaaaaaaaaaaaaaaaaaaaaaaa") ("0xab") =
      .error .messageTooLong ∧
    (envelopeBlock (utf8Encode ("Hi"))).getD 0 0 = (utf8Encode ("Hi")).length := by
  constructor
  · exact (sealMessage_length_bound ("aaaaaaaaaaaaaaaaaaaaaaaaaaaaaaaa") ("0xab")
      (keccak256 [0xab]) (by decide)).1.mpr (by decide)
  · exact ((sealMessage_length_bound ("Hi") ("0xab") (keccak256 [0xab])
      (by decide)).2 (by decide)).2.1

/-! ## Claim C10: seal output fits 256 bits -/

/-- C10.  Implicit seal range: a successful `sealMessage` returns the
big-endian value of exactly 32 bytes, hence an integer below 2^256 — it
always fits the contract's 256-bit encrypted message slot. -/
theorem sealMessage_range (m k : String) (kb : List Nat) (v : Nat)
    (hkey : deriveKeyBytes k = some kb) (hok : sealMessage m k = .ok v) :
    v = bytesToNat (List.zipWith Nat.xor (envelopeBlock (utf8Encode m)) kb) ∧
    (List.zipWith Nat.xor (envelopeBlock (utf8Encode m)) kb).length = 32 ∧
    v < 2 ^ 256 := by
  obtain ⟨hkl, hklt⟩ := deriveKeyBytes_spec k kb hkey
  unfold sealMessage at hok
  rw [hkey] at hok
  simp only [] at hok
  by_cases hlen : (utf8Encode m).length > 31
  · rw [if_pos hlen] at hok
    cases hok
  · rw [if_neg hlen] at hok
    injection hok with hv
    have hlen' : (utf8Encode m).length ≤ 31 := by omega
    have hblt := envelopeBlock_lt _ hlen' (utf8Encode_lt m)
    have hxlt := zipWith_xor_lt _ _ hblt hklt
    have hxlen : (List.zipWith Nat.xor (envelopeBlock (utf8Encode m)) kb).length = 32 := by
      simp [List.length_zipWith, envelopeBlock_length _ hlen', hkl]
    have hbound := bytesToNat_lt _ hxlt
    rw [hxlen] at hbound
    refine ⟨hv.symm, hxlen, ?_⟩
    rw [← hv]
    calc bytesToNat (List.zipWith Nat.xor (envelopeBlock (utf8Encode m)) kb)
        < 256 ^ 32 := hbound
    _ = 2 ^ 256 := by norm_num

set_option maxRecDepth 100000 in
/-- C10 witness: the concrete sealed value of "Hello" under "0xab" is below
2^256. -/
theorem sealMessage_range_witness :
    (30657755169545861795518930387362200089398620608446053873334944447710053249144 : Nat) <
      2 ^ 256 :=
  (sealMessage_range ("Hello") ("0xab") (keccak256 [0xab])
    30657755169545861795518930387362200089398620608446053873334944447710053249144
    (by decide) (by rfl)).2.2

/-! ## Claim C8: key derivation is not canonical in the secret value -/

set_option maxRecDepth 100000 in
/-- C8 counterexample: the strings "0x00ab" and "0xab" denote the same secret
value, but `deriveKeyBytes` hashes the literal hex bytes, so the two key
streams differ — the derivation is not a function of the canonical big-endian
representation of the value. -/
theorem deriveKeyBytes_not_canonical :
    secretValue ("0x00ab") = secretValue ("0xab") ∧
    deriveKeyBytes ("0x00ab") ≠ deriveKeyBytes ("0xab") := by decide

/-- C8 amended: only for a secret given in decimal form is the key stream
keccak256 of the canonical minimal big-endian bytes of its value; a
`0x`-prefixed secret is hashed as its literal hex-digit bytes, so two
hex spellings of the same value may yield different key streams. -/
theorem deriveKeyBytes_decimal (k : String) (v : Nat)
    (hdec : parseDecimalAux k.data 0 = some v) :
    deriveKeyBytes k = some (keccak256 (natToMinBytes v)) := by
  unfold deriveKeyBytes rawKeyBytes
  split
  · rename_i rest heq
    rw [heq] at hdec
    have h0 : ('0' ≤ '0' ∧ '0' ≤ '9') := by decide
    have hx : ¬ ('0' ≤ 'x' ∧ 'x' ≤ '9') := by decide
    simp only [parseDecimalAux, if_pos h0, if_neg hx] at hdec
    exact Option.noConfusion hdec
  · rw [hdec]
    rfl

set_option maxRecDepth 100000 in
/-- C8 amended witness: the decimal secret "171" derives the keccak256 hash of
the canonical one-byte representation of 171. -/
theorem deriveKeyBytes_decimal_witness :
    deriveKeyBytes ("171") = some (keccak256 (natToMinBytes 171)) :=
  deriveKeyBytes_decimal ("171") 171 (by decide)

end ZVerse
